import Mathlib

set_option maxRecDepth 4000

/-!
Verification of the npm supply-chain risk pipeline against its design
specification.  Each JavaScript source function that a claim depends on is
shallow-embedded as an executable Lean definition; machine numbers are
modelled as Nat/Int with explicit reductions modulo 2^32 where the source
relies on 32-bit wrap-around, and fallible steps return Except/Option.
External effects (registry HTTP, the container runtime, the capture file
produced inside the container) are supplied as explicit oracle parameters,
so every definition stays a pure function of its inputs.

The file is organised as: all definitions first, then all theorems.
-/

/-! ### Aggregator: risk score (server.js, route /scan/score) -/

/-- `riskScore = vulnerabilityCount + c2Count * 2 + githubHighRiskCount * 3`
(server.js, /scan/score step 3). -/
def riskScore (vulnerabilityCount c2Count githubHighRiskCount : Nat) : Nat :=
  vulnerabilityCount + c2Count * 2 + githubHighRiskCount * 3

/-! ### String helpers shared by several components

The JavaScript sources split strings on a one-character separator
(`split("\n")`, `split("\t")`) and trim surrounding whitespace.  These are
embedded as structurally recursive functions on the character list of the
string, so that the kernel can evaluate them on concrete inputs. -/

/-- One step of the separator split: `cur` is the current field, reversed. -/
def splitCharAux (c : Char) : List Char → List Char → List (List Char)
  | [], cur => [cur.reverse]
  | x :: xs, cur =>
    if x = c then cur.reverse :: splitCharAux c xs []
    else splitCharAux c xs (x :: cur)

/-- JavaScript `str.split(sep)` for a one-character separator `sep`. -/
def jsSplit (c : Char) (s : String) : List String :=
  (splitCharAux c s.data []).map String.mk

/-- JavaScript `str.trim()`: drop whitespace from both ends. -/
def jsTrim (s : String) : String :=
  String.mk (((s.data.dropWhile Char.isWhitespace).reverse.dropWhile
    Char.isWhitespace).reverse)

/-! ### Heuristic scanner: isObfuscated (server.js)

The source splits the code on a newline, returns true for a single line
longer than 1000 characters, otherwise compares the average line length
(a real-number division in the source, embedded as exact rational
division) against 200 with a strict test. -/

def isObfuscated (code : String) : Bool :=
  let lines := jsSplit '\n' code
  if lines.length = 1 ∧ code.length > 1000 then true
  else if ((code.length : ℚ) / (lines.length : ℚ)) > 200 then true
  else false

/-- Join character-list lines with a single separator character
(test-fixture builder, not part of the embedded source). -/
def joinSep (c : Char) : List (List Char) → List Char
  | [] => []
  | [p] => p
  | p :: q :: rest => p ++ c :: joinSep c (q :: rest)

/-- A single text line of 1200 identical characters (no newline). -/
def oneLine1200 : String := String.mk (joinSep '\n' [List.replicate 1200 'a'])

/-- Fifty lines of forty characters each, joined by newlines. -/
def fifty40 : String :=
  String.mk (joinSep '\n' (List.replicate 50 (List.replicate 40 'x')))

/-- Two lines averaging exactly 200 characters per line:
199 characters, a newline, then 200 characters (400 characters, 2 lines). -/
def boundary200 : String :=
  String.mk (joinSep '\n' [List.replicate 199 'y', List.replicate 200 'y'])

/-! ### Sampler (sample_packages.js)

`makeRNG` is a 32-bit xorshift generator; JavaScript coerces the state with
`>>> 0` so the state is kept below 2^32.  The driver runs a Fisher-Yates
shuffle downwards from the last index and truncates with `slice(0, k)`.
The returned float is `state / 0xffffffff`; the index actually used is
`Math.floor(rng() * (i + 1))`, embedded as exact natural floor division
(for states below 0xffffffff the float product rounds below the integer
ceiling, so the exact floor agrees with the source on the range facts the
theorems use). -/

/-- One xorshift update: `s ^= s << 13; s ^= s >>> 17; s ^= s << 5`, with
the 32-bit wrap-around of the shifts made explicit. -/
def xorshiftStep (s : Nat) : Nat :=
  let s1 := (s ^^^ (s <<< 13)) % 4294967296
  let s2 := s1 ^^^ (s1 >>> 17)
  (s2 ^^^ (s2 <<< 5)) % 4294967296

/-- Swap the elements at positions `i` and `j`
(`[all[i], all[j]] = [all[j], all[i]]`).  Out-of-range indices leave the
list unchanged; in the source the only call that could ever go out of
range is the first one, and only if the generator returned exactly
0xffffffff there, which `xorshiftFirst_ne` rules out for the hard-coded
seed. -/
def swapIdx (l : List String) (i j : Nat) : List String :=
  if h : i < l.length ∧ j < l.length then
    (l.set i (l.get ⟨j, h.2⟩)).set j (l.get ⟨i, h.1⟩)
  else l

/-- The Fisher-Yates loop, counting the index `i` down; the first argument
is the generator state. -/
def fyAux : Nat → Nat → List String → List String
  | _, 0, l => l
  | s, i + 1, l =>
    let s2 := xorshiftStep s
    let j := s2 * (i + 2) / 4294967295
    fyAux s2 i (swapIdx l (i + 1) j)

/-- sample_packages.js: seed the generator, shuffle the whole list in
place, then `slice(0, sampleSize)`. -/
def samplePackages (seed sampleSize : Nat) (all : List String) : List String :=
  (fyAux (seed % 4294967296) (all.length - 1) all).take sampleSize

/-! ### Sandbox executor domain extraction (dynamic_c2_scan_docker.js)

Each capture line holds a DNS query name and a TLS SNI value separated by
a tab.  A blank line is skipped; otherwise the line is split on tabs, each
field trimmed, blank fields dropped, and the first remaining field taken
(`parts[0] || parts[1]` in the source, applied after the blank filter).
A seen-set deduplicates while keeping first-occurrence order. -/

/-- The name contributed by one capture line, if any. -/
def extractLine (line : String) : Option String :=
  if jsTrim line = "" then none
  else (((jsSplit '\t' line).map jsTrim).filter (fun s => s ≠ "")).head?

/-- One fold step of the extraction loop: skip absent names and names
already seen, otherwise push. -/
def extractStep (acc : List String) (line : String) : List String :=
  match extractLine line with
  | none => acc
  | some name => if name ∈ acc then acc else acc ++ [name]

/-- The full extraction loop over the capture lines. -/
def extractDomains (lines : List String) : List String :=
  lines.foldl extractStep []

/-! ### Registry client: version selection (download-packages.js)

`processPackage` builds `versionEntries` from the metadata `time` map,
dropping the `created`/`modified` bookkeeping keys and every version whose
publish time is after the cutoff, then sorts ascending by publish time
with a stable comparator `(a, b) => a.time - b.time` and picks the last
element.  Publish times are embedded as integers (milliseconds); versions
are opaque strings, never compared.  A stable sort on a total preorder is
uniquely determined by the key order, so Mathlib insertion sort (stable)
embeds the stable JavaScript `Array.sort`. -/

structure VersionEntry where
  ver : String
  time : Int
deriving DecidableEq

/-- Comparator used by the sort: publish time only. -/
def timeLE (a b : VersionEntry) : Prop := a.time ≤ b.time

instance timeLE.instDecidableRel : DecidableRel timeLE := fun a b =>
  inferInstanceAs (Decidable (a.time ≤ b.time))

/-- The `versionEntries` list: the time map without `created`/`modified`,
restricted to publish times at or before the cutoff. -/
def versionCandidates (timeMap : List (String × Int)) (cutoff : Int) :
    List VersionEntry :=
  ((timeMap.filter (fun p => p.1 != "created" && p.1 != "modified")).map
      (fun p => { ver := p.1, time := p.2 })).filter
    (fun e => decide (e.time ≤ cutoff))

/-- Version selection: error when no candidate survives the cutoff,
otherwise the last element of the time-sorted candidates.  The inner
`none` branch is unreachable (the sort permutes a nonempty list). -/
def selectVersion (timeMap : List (String × Int)) (cutoff : Int) :
    Except String VersionEntry :=
  let entries := versionCandidates timeMap cutoff
  if entries.isEmpty then Except.error "NO_VERSION_BEFORE_CUTOFF"
  else
    match (List.insertionSort timeLE entries).getLast? with
    | some e => Except.ok e
    | none => Except.error "NO_VERSION_BEFORE_CUTOFF"

instance timeLE.instIsTotal : IsTotal VersionEntry timeLE :=
  ⟨fun a b => le_total a.time b.time⟩

instance timeLE.instIsTrans : IsTrans VersionEntry timeLE :=
  ⟨fun _ _ _ hab hbc => le_trans hab hbc⟩

/-! ### Fetch pipeline: processPackage (download-packages.js)

The per-package job: fetch the registry metadata, select a version before
the cutoff, look up the tarball of the selected version, download with up
to three attempts, then extract.  Every failure is caught at the package
boundary and converted into an error outcome; nothing is thrown to the
caller.  The network and the archive tool are oracles; the embedding also
receives the current content of the destination directories as a predicate
`hasContent`, which the source never consults (processPackage has no
existence check before downloading), so the definition never reads it. -/

/-- Registry metadata: the `time` map and, per version, the optional
`dist.tarball` URL (`none` embeds missing `dist`/`tarball`). -/
structure PkgMeta where
  time : List (String × Int)
  versions : List (String × Option String)
deriving DecidableEq

/-- Oracles for the network and the archive tool: the metadata fetch
outcome per package, the download outcome per URL and attempt number, and
the extraction outcome per tarball path. -/
structure NetEnv where
  fetchMeta : String → Except String PkgMeta
  downloadOk : String → Nat → Bool
  extractOk : String → Bool

/-- Externally visible actions of one package job, in order. -/
inductive FetchAction
  | fetchMeta (pkg : String)
  | download (url : String) (attempt : Nat)
  | extract (tgz : String)
deriving DecidableEq

/-- A success or failure ledger entry. -/
inductive PkgOutcome
  | ok (pkg ver dir : String)
  | err (pkg msg : String)
deriving DecidableEq

/-- Whether the outcome is a success entry (`r.ok`). -/
def PkgOutcome.isOk : PkgOutcome → Bool
  | .ok .. => true
  | .err .. => false

/-- `safeName`: replace every path separator with `+`
(`@scope/name` to `@scope+name`). -/
def safeName (pkg : String) : String :=
  String.mk (pkg.data.map (fun c => if c = '/' then '+' else c))

/-- The download loop with `MAX_DL_TRIES` remaining attempts, counting the
attempt number up from `attempt`; returns whether some attempt succeeded
and the attempts made. -/
def downloadRetry (net : NetEnv) (url : String) : Nat → Nat → Bool × List FetchAction
  | _, 0 => (false, [])
  | attempt, rem + 1 =>
    if net.downloadOk url attempt then (true, [FetchAction.download url attempt])
    else
      let r := downloadRetry net url (attempt + 1) rem
      (r.1, FetchAction.download url attempt :: r.2)

/-- One package job of the fetch pipeline; returns the ledger entry and
the trace of external actions. -/
def processPackage (cutoff : Int) (net : NetEnv) (hasContent : String → Bool)
    (outDir : String) (pkg : String) : PkgOutcome × List FetchAction :=
  match net.fetchMeta pkg with
  | Except.error e => (PkgOutcome.err pkg e, [FetchAction.fetchMeta pkg])
  | Except.ok meta =>
    match selectVersion meta.time cutoff with
    | Except.error e => (PkgOutcome.err pkg e, [FetchAction.fetchMeta pkg])
    | Except.ok sel =>
      match meta.versions.lookup sel.ver with
      | none =>
        (PkgOutcome.err pkg "NO_TARBALL_FOR_SELECTED_VERSION",
          [FetchAction.fetchMeta pkg])
      | some none =>
        (PkgOutcome.err pkg "NO_TARBALL_FOR_SELECTED_VERSION",
          [FetchAction.fetchMeta pkg])
      | some (some tarballUrl) =>
        let pkgOutBase := outDir ++ "/" ++ safeName pkg
        let tgzPath := pkgOutBase ++ "/" ++ safeName pkg ++ "-" ++ sel.ver ++ ".tgz"
        let dl := downloadRetry net tarballUrl 1 3
        let acts := FetchAction.fetchMeta pkg :: dl.2
        if dl.1 then
          if net.extractOk tgzPath then
            (PkgOutcome.ok pkg sel.ver pkgOutBase,
              acts ++ [FetchAction.extract tgzPath])
          else
            (PkgOutcome.err pkg "EXTRACT_FAILED",
              acts ++ [FetchAction.extract tgzPath])
        else (PkgOutcome.err pkg "DOWNLOAD_FAILED", acts)

/-! ### Fetch pipeline: the concurrency queue (runQueue)

The source keeps up to `concurrency` worker promises in flight, awaits
`Promise.race(active)`, records the settled result, removes the settled
promise from `active` (its `finally` fires before the race continuation)
and dispatches the next name.  Node drains the microtask queue after each
I/O callback and each worker settles from its own callback, so exactly one
settlement is observed per race; which in-flight worker settles first is
up to the runtime and is supplied here as an explicit schedule of indices
into the active list (reduced modulo its length).  Workers never reject:
processPackage catches every failure, so the catch branches of the source
are dead and each settlement contributes exactly its outcome. -/

def runQueueAux {α β : Type} (worker : α → β) (pending active : List α)
    (sched : List Nat) (results : List β) : List β :=
  if h : active.length = 0 then results
  else
    let k := sched.head?.getD 0 % active.length
    let item := active.get ⟨k, Nat.mod_lt _ (Nat.pos_of_ne_zero h)⟩
    let active2 := active.eraseIdx k
    match pending with
    | [] => runQueueAux worker [] active2 sched.tail (results ++ [worker item])
    | p :: ps =>
      runQueueAux worker ps (active2 ++ [p]) sched.tail (results ++ [worker item])
termination_by pending.length + active.length
decreasing_by
  all_goals
    have hk2 : sched.head?.getD 0 % active.length < active.length :=
      Nat.mod_lt _ (Nat.pos_of_ne_zero h)
    simp only [List.length_append, List.length_eraseIdx, List.length_cons,
      List.length_nil, if_pos hk2]
    omega

/-- The queue: kick off the first `concurrency` items, then settle-and-
dispatch until done. -/
def runQueue {α β : Type} (worker : α → β) (items : List α) (concurrency : Nat)
    (sched : List Nat) : List β :=
  runQueueAux worker (items.drop concurrency) (items.take concurrency) sched []

/-- A concrete network fixture: metadata resolution fails for the package
named `bad` and succeeds with one version at time 5 for every other name;
downloads and extraction always succeed. -/
def fetchNetFixture : NetEnv where
  fetchMeta := fun pkg =>
    if pkg = "bad" then Except.error "ENOTFOUND"
    else
      Except.ok
        { time := [("created", 0), ("1.0.0", 5)],
          versions := [("1.0.0", some "https-tarball")] }
  downloadOk := fun _ _ => true
  extractOk := fun _ => true

/-! ### Reputation enricher (server.js, route /scan/c2)

`queryVirusTotal` awaits a fixed 1000 ms delay, performs the external
lookup, and catches any error into a `{domain, error}` entry, so the
worker promise never rejects; `Promise.allSettled` over the first
`maxQueries` captured domains therefore yields only fulfilled results and
the rejected-branch mapping in the source is dead.  The external service
is an oracle from domain to outcome, and the delay and the query are
recorded in an event trace. -/

/-- Outcome of one external reputation lookup. -/
inductive VTOutcome
  | ok (rep : String)
  | fail (msg : String)
deriving DecidableEq

/-- One entry of the enrichment response: a verdict or a per-domain
error record. -/
inductive VTEntry
  | verdict (domain rep : String)
  | failure (domain msg : String)
deriving DecidableEq

/-- The domain an entry is keyed by. -/
def VTEntry.domain : VTEntry → String
  | .verdict d _ => d
  | .failure d _ => d

/-- Whether the entry is the error form. -/
def VTEntry.isFailure : VTEntry → Bool
  | .verdict .. => false
  | .failure .. => true

/-- Externally visible events of the enrichment. -/
inductive VTEvent
  | delay (ms : Nat)
  | query (domain : String)
deriving DecidableEq

/-- Whether an event is an external query. -/
def VTEvent.isQuery : VTEvent → Bool
  | .query _ => true
  | .delay _ => false

/-- One lookup: delay, then query; errors are caught per domain. -/
def queryVirusTotal (outcome : String → VTOutcome) (domain : String) :
    VTEntry × List VTEvent :=
  (match outcome domain with
    | VTOutcome.ok rep => VTEntry.verdict domain rep
    | VTOutcome.fail msg => VTEntry.failure domain msg,
   [VTEvent.delay 1000, VTEvent.query domain])

/-- `const maxQueries = 5`. -/
def maxQueries : Nat := 5

/-- The batch: take the first `maxQueries` domains, fan out, collect all
entries (one per domain) and the concatenated event trace. -/
def scanC2Batch (outcome : String → VTOutcome) (domains : List String) :
    List VTEntry × List VTEvent :=
  let selectedDomains := domains.take maxQueries
  (selectedDomains.map (fun d => (queryVirusTotal outcome d).1),
   selectedDomains.flatMap (fun d => (queryVirusTotal outcome d).2))

/-- Each query in the trace is immediately preceded by its delay. -/
def wellPaced : List VTEvent → Bool
  | [] => true
  | VTEvent.delay _ :: VTEvent.query _ :: rest => wellPaced rest
  | _ => false

/-- A reputation oracle where exactly the third domain fails. -/
def vtFixture : String → VTOutcome := fun d =>
  if d = "c.example" then VTOutcome.fail "timeout" else VTOutcome.ok "clean"

/-- Five concrete domains for the enricher witness. -/
def fiveDomains : List String :=
  ["a.example", "b.example", "c.example", "d.example", "e.example"]

/-! ### Sandbox executor main loop (dynamic_c2_scan_docker.js)

Artifacts of one package live under the output directory as
`<safe>.json`, `<safe>.txt`, `<safe>.pcap`, `<safe>.start.txt`,
`<safe>.end.txt`; every path the loop touches is of the form
`base + "." + extension`, so the file store is keyed by the pair
(base, extension).  The container run is an oracle mapping the safe name
to a launch-error flag plus the files the container script may write (the
script guards each step with `|| true`, so any subset can be missing);
the loop itself only ever reads `<safe>.txt` and writes `<safe>.json`.
The record written is `{pkg, domains, vt: {}, timestamp}`; `vt` is the
constant empty placeholder, so the embedded record keeps the remaining
three fields.  The short `Atomics.wait` pause between jobs has no
observable effect and is not modelled. -/

/-- A stored file: raw text or the per-package result record. -/
inductive FileContent
  | text (s : String)
  | record (pkg : String) (domains : List String) (timestamp : String)
deriving DecidableEq

/-- The output directory: newest-first association list from
(base name, extension) to content. -/
abbrev SandboxFS := List ((String × String) × FileContent)

/-- Read a file. -/
def fsGet (fs : SandboxFS) (k : String × String) : Option FileContent :=
  fs.lookup k

/-- Write (or overwrite) a file. -/
def fsSet (fs : SandboxFS) (k : String × String) (v : FileContent) : SandboxFS :=
  (k, v) :: fs

/-- Result of one container run: whether the launch errored, and the
artifact files the container produced (none = file absent). -/
structure DockerResult where
  error : Bool
  startTxt : Option String
  endTxt : Option String
  pcap : Option String
  captureTxt : Option String
deriving DecidableEq

/-- Apply one optional container write. -/
def applyOptWrite (fs : SandboxFS) (k : String × String) :
    Option String → SandboxFS
  | none => fs
  | some c => fsSet fs k (FileContent.text c)

/-- Apply the container writes for one package. -/
def applyDockerWrites (fs : SandboxFS) (safe : String) (r : DockerResult) :
    SandboxFS :=
  applyOptWrite (applyOptWrite (applyOptWrite (applyOptWrite fs
    (safe, "start.txt") r.startTxt)
    (safe, "pcap") r.pcap)
    (safe, "end.txt") r.endTxt)
    (safe, "txt") r.captureTxt

/-- Split the capture text on `\r?\n` (split on the newline, then strip a
trailing carriage return from each line). -/
def splitLines (s : String) : List String :=
  (splitCharAux '\n' s.data []).map
    (fun cs => String.mk (if cs.getLast? = some '\r' then cs.dropLast else cs))

/-- One iteration of the executor loop: skip when the result artifact
exists; otherwise run the container (launch errors are only logged),
extract the domains from the capture text when present, and always write
the result record.  Returns the new store and whether the isolation
runtime was invoked. -/
def sandboxStep (denv : String → DockerResult) (now : String) (fs : SandboxFS)
    (pkg : String) : SandboxFS × Bool :=
  let safe := safeName pkg
  if (fsGet fs (safe, "json")).isSome then (fs, false)
  else
    let fs1 := applyDockerWrites fs safe (denv safe)
    let domains :=
      match fsGet fs1 (safe, "txt") with
      | some (FileContent.text t) => extractDomains (splitLines t)
      | _ => []
    (fsSet fs1 (safe, "json") (FileContent.record pkg domains now), true)

/-- The executor over the package list: the final store and the safe
names for which the isolation runtime was invoked. -/
def runExecutor (denv : String → DockerResult) (now : String) :
    SandboxFS → List String → SandboxFS × List String
  | fs, [] => (fs, [])
  | fs, p :: ps =>
    let st := sandboxStep denv now fs p
    let rest := runExecutor denv now st.1 ps
    (rest.1, (if st.2 then [safeName p] else []) ++ rest.2)

/-- A container oracle where every launch fails and no artifact is
produced. -/
def dockerFailFixture : String → DockerResult := fun _ =>
  { error := true, startTxt := none, endTxt := none, pcap := none,
    captureTxt := none }

/-! ### Theorems -/

/-- The first generator output for the hard-coded seed 20250801 is not
0xffffffff, so the first (and only potentially out-of-range) Fisher-Yates
index stays in range. -/
theorem xorshiftFirst_ne : xorshiftStep 20250801 ≠ 4294967295 := by decide

theorem splitCharAux_ne_nil (c : Char) (l cur : List Char) :
    splitCharAux c l cur ≠ [] := by
  induction l generalizing cur with
  | nil => simp [splitCharAux]
  | cons x xs ih =>
    simp only [splitCharAux]
    split
    · simp
    · exact ih _

theorem jsSplit_length_pos (c : Char) (s : String) : 0 < (jsSplit c s).length := by
  unfold jsSplit
  rw [List.length_map]
  cases h : splitCharAux c s.data [] with
  | nil => exact absurd h (splitCharAux_ne_nil c s.data [])
  | cons a l => simp

theorem isObfuscated_iff_nat (code : String) :
    isObfuscated code = true ↔
      ((jsSplit '\n' code).length = 1 ∧ code.length > 1000) ∨
        code.length > 200 * (jsSplit '\n' code).length := by
  have hpos : (0 : ℚ) < ((jsSplit '\n' code).length : ℚ) := by
    exact_mod_cast jsSplit_length_pos '\n' code
  unfold isObfuscated
  by_cases h1 : (jsSplit '\n' code).length = 1 ∧ code.length > 1000
  · simp [h1]
  · simp only [h1, if_false, false_or]
    constructor
    · intro h
      by_cases h2 : ((code.length : ℚ) / ((jsSplit '\n' code).length : ℚ)) > 200
      · have h3 : (200 : ℚ) * ((jsSplit '\n' code).length : ℚ) < (code.length : ℚ) :=
          (lt_div_iff₀ hpos).mp h2
        exact_mod_cast h3
      · simp [h2] at h
    · intro h
      have h3 : ((200 : ℚ) * ((jsSplit '\n' code).length : ℚ)) < (code.length : ℚ) := by
        exact_mod_cast h
      have h2 : ((code.length : ℚ) / ((jsSplit '\n' code).length : ℚ)) > 200 :=
        (lt_div_iff₀ hpos).mpr h3
      simp [h2]

theorem splitCharAux_no_sep (c : Char) (xs : List Char) (h : c ∉ xs) :
    ∀ cur, splitCharAux c xs cur = [cur.reverse ++ xs] := by
  induction xs with
  | nil => intro cur; simp [splitCharAux]
  | cons x t ih =>
    intro cur
    simp only [List.mem_cons, not_or] at h
    rw [splitCharAux, if_neg (fun he => h.1 he.symm), ih h.2]
    simp

theorem splitCharAux_sep_split (c : Char) (xs rest : List Char) (h : c ∉ xs) :
    ∀ cur, splitCharAux c (xs ++ c :: rest) cur =
      (cur.reverse ++ xs) :: splitCharAux c rest [] := by
  induction xs with
  | nil => intro cur; simp [splitCharAux]
  | cons x t ih =>
    intro cur
    simp only [List.mem_cons, not_or] at h
    rw [List.cons_append, splitCharAux, if_neg (fun he => h.1 he.symm), ih h.2]
    simp

theorem splitCharAux_joinSep (c : Char) :
    ∀ parts : List (List Char), parts ≠ [] → (∀ p ∈ parts, c ∉ p) →
      splitCharAux c (joinSep c parts) [] = parts
  | [], hne, _ => absurd rfl hne
  | [p], _, h => by
    rw [joinSep, splitCharAux_no_sep c p (h p (by simp))]
    simp
  | p :: q :: rest, _, h => by
    rw [joinSep, splitCharAux_sep_split c p _ (h p (by simp))]
    rw [splitCharAux_joinSep c (q :: rest) (by simp) (fun x hx => h x (by simp [hx]))]
    simp

theorem joinSep_length (c : Char) :
    ∀ parts : List (List Char), parts ≠ [] →
      (joinSep c parts).length = (parts.map List.length).sum + (parts.length - 1)
  | [], hne => absurd rfl hne
  | [p], _ => by simp [joinSep]
  | p :: q :: rest, _ => by
    rw [joinSep, List.length_append, List.length_cons,
      joinSep_length c (q :: rest) (by simp)]
    simp
    omega

theorem oneLine1200_stats :
    (jsSplit '\n' oneLine1200).length = 1 ∧ oneLine1200.length = 1200 := by
  constructor
  · show ((splitCharAux '\n' (joinSep '\n' [List.replicate 1200 'a']) []).map
      String.mk).length = 1
    rw [splitCharAux_joinSep '\n' _ (List.cons_ne_nil _ _)
      (fun p hp => by
        rw [List.mem_singleton] at hp
        subst hp
        intro hc
        exact absurd (List.eq_of_mem_replicate hc) (by decide))]
    rfl
  · show (joinSep '\n' [List.replicate 1200 'a']).length = 1200
    rw [joinSep_length '\n' _ (List.cons_ne_nil _ _)]
    simp only [List.map_cons, List.map_nil, List.length_replicate,
      List.sum_cons, List.sum_nil, List.length_cons, List.length_nil]
    omega

theorem fifty40_stats :
    (jsSplit '\n' fifty40).length = 50 ∧ fifty40.length = 2049 := by
  constructor
  · show ((splitCharAux '\n'
      (joinSep '\n' (List.replicate 50 (List.replicate 40 'x'))) []).map
      String.mk).length = 50
    rw [splitCharAux_joinSep '\n' _ (by
        intro hnil
        have : (List.replicate 50 (List.replicate 40 'x')).length = 0 := by
          rw [hnil]; rfl
        rw [List.length_replicate] at this
        omega)
      (fun p hp => by
        rw [List.eq_of_mem_replicate hp]
        intro hc
        exact absurd (List.eq_of_mem_replicate hc) (by decide))]
    rw [List.length_map, List.length_replicate]
  · show (joinSep '\n' (List.replicate 50 (List.replicate 40 'x'))).length = 2049
    rw [joinSep_length '\n' _ (by
      intro hnil
      have : (List.replicate 50 (List.replicate 40 'x')).length = 0 := by
        rw [hnil]; rfl
      rw [List.length_replicate] at this
      omega)]
    rw [List.map_replicate, List.length_replicate, List.sum_replicate,
      List.length_replicate, smul_eq_mul]

theorem boundary200_stats :
    (jsSplit '\n' boundary200).length = 2 ∧ boundary200.length = 400 := by
  constructor
  · show ((splitCharAux '\n'
      (joinSep '\n' [List.replicate 199 'y', List.replicate 200 'y']) []).map
      String.mk).length = 2
    rw [splitCharAux_joinSep '\n' _ (List.cons_ne_nil _ _)
      (fun p hp => by
        rw [List.mem_cons, List.mem_singleton] at hp
        rcases hp with h | h <;>
          (subst h
           intro hc
           exact absurd (List.eq_of_mem_replicate hc) (by decide)))]
    rfl
  · show (joinSep '\n' [List.replicate 199 'y', List.replicate 200 'y']).length = 400
    rw [joinSep_length '\n' _ (List.cons_ne_nil _ _)]
    simp only [List.map_cons, List.map_nil, List.length_replicate,
      List.sum_cons, List.sum_nil, List.length_cons, List.length_nil]
    omega

/-- C6: isObfuscated returns true exactly when the text is a single line of
more than 1000 characters or its average characters-per-line strictly
exceeds 200 (stated over the line count and the 200-per-line product); in
particular a 1200-character single-line input yields true, a 50-line file
of 40 characters per line yields false, and a 2-line file of exactly 200
characters per line on average yields false. -/
theorem isObfuscated_spec :
    (∀ code : String,
      isObfuscated code = true ↔
        ((jsSplit '\n' code).length = 1 ∧ code.length > 1000) ∨
          code.length > 200 * (jsSplit '\n' code).length) ∧
    isObfuscated oneLine1200 = true ∧
    isObfuscated fifty40 = false ∧
    isObfuscated boundary200 = false := by
  refine ⟨isObfuscated_iff_nat, ?_, ?_, ?_⟩
  · rw [isObfuscated_iff_nat]
    exact Or.inl ⟨oneLine1200_stats.1, by rw [oneLine1200_stats.2]; omega⟩
  · rw [Bool.eq_false_iff]
    intro hb
    rcases (isObfuscated_iff_nat fifty40).mp hb with ⟨h1, _⟩ | h2
    · rw [fifty40_stats.1] at h1; omega
    · rw [fifty40_stats.1, fifty40_stats.2] at h2; omega
  · rw [Bool.eq_false_iff]
    intro hb
    rcases (isObfuscated_iff_nat boundary200).mp hb with ⟨h1, _⟩ | h2
    · rw [boundary200_stats.1] at h1; omega
    · rw [boundary200_stats.1, boundary200_stats.2] at h2; omega

/-- C7: the computed risk score equals
vulnerabilityCount + c2DomainCount * 2 + highRiskDependencyCount * 3 for
all non-negative integer inputs; in particular inputs (3, 2, 1) yield 10. -/
theorem riskScore_spec :
    (∀ vulnerabilityCount c2DomainCount highRiskDependencyCount : Nat,
        riskScore vulnerabilityCount c2DomainCount highRiskDependencyCount =
          vulnerabilityCount + c2DomainCount * 2 + highRiskDependencyCount * 3) ∧
    riskScore 3 2 1 = 10 :=
  ⟨fun _ _ _ => rfl, rfl⟩

theorem swapIdx_perm (l : List String) (i j : Nat) : List.Perm (swapIdx l i j) l := by
  unfold swapIdx
  split
  case isFalse h => exact List.Perm.refl l
  case isTrue h =>
    obtain ⟨hi, hj⟩ := h
    rw [List.perm_iff_count]
    intro b
    have hj1 : j < (l.set i (l.get ⟨j, hj⟩)).length := by simpa using hj
    have hgj : (l.set i (l.get ⟨j, hj⟩))[j] = l[j] := by
      rw [List.getElem_set]
      split
      · simp_all
      · rfl
    have e1 := List.count_set (l.get ⟨i, hi⟩) b (l.set i (l.get ⟨j, hj⟩)) j hj1
    have e2 := List.count_set (l.get ⟨j, hj⟩) b l i hi
    rw [e1, e2, hgj]
    simp only [List.get_eq_getElem, beq_iff_eq]
    have h1 : (if l[i] = b then 1 else 0) ≤ l.count b := by
      split
      · next heq => exact List.one_le_count_iff.mpr (heq ▸ List.getElem_mem hi)
      · omega
    have h2 : (if l[j] = b then 1 else 0) ≤ l.count b := by
      split
      · next heq => exact List.one_le_count_iff.mpr (heq ▸ List.getElem_mem hj)
      · omega
    split_ifs at * <;> omega

theorem fyAux_perm : ∀ (i s : Nat) (l : List String), List.Perm (fyAux s i l) l
  | 0, _, _ => List.Perm.refl _
  | i + 1, s, l => by
    simp only [fyAux]
    exact (fyAux_perm i _ _).trans (swapIdx_perm l (i + 1) _)

/-- C8: for any seed, any input list and any sample size at least the list
length, the Sampler returns a permutation of the full input (hence no
duplicates and no omissions when the input has no duplicates), and the
empty input yields the empty output rather than an error. -/
theorem samplePackages_spec (seed sampleSize : Nat) (all : List String) :
    (all.length ≤ sampleSize →
      List.Perm (samplePackages seed sampleSize all) all ∧
      (all.Nodup → (samplePackages seed sampleSize all).Nodup)) ∧
    samplePackages seed sampleSize [] = [] := by
  constructor
  · intro hk
    have hp := fyAux_perm (all.length - 1) (seed % 4294967296) all
    have heq : samplePackages seed sampleSize all =
        fyAux (seed % 4294967296) (all.length - 1) all := by
      unfold samplePackages
      exact List.take_of_length_le (by rw [hp.length_eq]; omega)
    rw [heq]
    exact ⟨hp, fun hn => (hp.nodup_iff).mpr hn⟩
  · simp [samplePackages, fyAux]

/-- C8 witness: the hard-coded seed of sample_packages.js on a concrete
three-element list with sample size 3. -/
theorem samplePackages_spec_witness :
    List.Perm (samplePackages 20250801 3 ["alpha", "beta", "gamma"])
      ["alpha", "beta", "gamma"] ∧
    (samplePackages 20250801 3 ["alpha", "beta", "gamma"]).Nodup ∧
    samplePackages 20250801 3 ([] : List String) = [] := by
  have h := samplePackages_spec 20250801 3 ["alpha", "beta", "gamma"]
  exact ⟨(h.1 (by decide)).1, (h.1 (by decide)).2 (by decide),
    (samplePackages_spec 20250801 3 []).2⟩

theorem extractStep_nodup (acc : List String) (line : String) (h : acc.Nodup) :
    (extractStep acc line).Nodup := by
  cases he : extractLine line with
  | none => simpa [extractStep, he]
  | some name =>
    simp only [extractStep, he]
    split
    · exact h
    · next hmem => simp [List.nodup_append, h, hmem]

theorem foldl_extractStep_nodup (lines : List String) :
    ∀ acc : List String, acc.Nodup → (List.foldl extractStep acc lines).Nodup := by
  induction lines with
  | nil => intro acc h; simpa
  | cons l ls ih => intro acc h; exact ih _ (extractStep_nodup acc l h)

theorem foldl_extractStep_mem (lines : List String) :
    ∀ acc d, d ∈ List.foldl extractStep acc lines →
      d ∈ acc ∨ ∃ line ∈ lines, extractLine line = some d := by
  induction lines with
  | nil => intro acc d h; exact Or.inl (by simpa using h)
  | cons l ls ih =>
    intro acc d h
    rcases ih _ d h with hacc | ⟨line, hm, he⟩
    · cases he2 : extractLine l with
      | none =>
        simp only [extractStep, he2] at hacc
        exact Or.inl hacc
      | some name =>
        simp only [extractStep, he2] at hacc
        split at hacc
        · exact Or.inl hacc
        · rcases List.mem_append.mp hacc with h1 | h2
          · exact Or.inl h1
          · right
            refine ⟨l, by simp, ?_⟩
            simp only [List.mem_singleton] at h2
            rw [he2, h2]
    · right; exact ⟨line, by simp [hm], he⟩

/-- C5: the extracted domain list is duplicate-free; every extracted
domain is contributed by some capture line; a record carrying both a DNS
query name and an SNI value contributes the DNS name (the first tab
field); a blank line contributes nothing. -/
theorem extractDomains_spec :
    (∀ lines : List String, (extractDomains lines).Nodup) ∧
    (∀ (lines : List String) (d : String), d ∈ extractDomains lines →
      ∃ line ∈ lines, extractLine line = some d) ∧
    (∀ line d s : String, jsSplit '\t' line = [d, s] → jsTrim line ≠ "" →
      jsTrim d ≠ "" → jsTrim s ≠ "" → extractLine line = some (jsTrim d)) ∧
    (∀ line : String, jsTrim line = "" → extractLine line = none) := by
  refine ⟨?_, ?_, ?_, ?_⟩
  · intro lines
    exact foldl_extractStep_nodup lines [] (List.nodup_nil)
  · intro lines d h
    rcases foldl_extractStep_mem lines [] d h with h1 | h2
    · simp at h1
    · exact h2
  · intro line d s hsplit hline hd hs
    unfold extractLine
    rw [if_neg hline, hsplit]
    simp [hd, hs]
  · intro line h
    simp [extractLine, h]

/-- C5 witness: a record with both fields yields the DNS name, a
two-record capture with a repeated domain stays duplicate-free, and a
blank line contributes nothing. -/
theorem extractDomains_spec_witness :
    extractLine "dns.example\tsni.example" = some (jsTrim "dns.example") ∧
    (extractDomains ["dns.example\tsni.example", "", "dns.example\tother"]).Nodup ∧
    extractLine " " = none := by
  refine ⟨extractDomains_spec.2.2.1 "dns.example\tsni.example" "dns.example"
      "sni.example" (by decide) (by decide) (by decide) (by decide),
    extractDomains_spec.1 ["dns.example\tsni.example", "", "dns.example\tother"],
    extractDomains_spec.2.2.2 " " (by decide)⟩

theorem pairwise_getLast_le {α : Type} {R : α → α → Prop} :
    ∀ (l : List α) (e : α), l.Pairwise R → l.getLast? = some e →
      ∀ x ∈ l, x = e ∨ R x e
  | [], e, _, h => by simp at h
  | [a], e, _, h => by
    intro x hx
    simp at h hx
    exact Or.inl (hx.trans h)
  | a :: b :: t, e, hp, h => by
    intro x hx
    have hlast : (b :: t).getLast? = some e := by simpa using h
    rcases List.mem_cons.mp hx with rfl | hx2
    · have he_mem : e ∈ b :: t := by
        rcases List.getLast?_eq_some_iff.mp hlast with ⟨ys, hys⟩
        rw [hys]; simp
      exact Or.inr ((List.pairwise_cons.mp hp).1 e he_mem)
    · exact pairwise_getLast_le (b :: t) e (List.pairwise_cons.mp hp).2 hlast x hx2

theorem versionCandidates_shape (timeMap : List (String × Int)) (cutoff : Int)
    (e : VersionEntry) (h : e ∈ versionCandidates timeMap cutoff) :
    e.time ≤ cutoff ∧ (e.ver, e.time) ∈ timeMap ∧
      e.ver ≠ "created" ∧ e.ver ≠ "modified" := by
  unfold versionCandidates at h
  rw [List.mem_filter] at h
  obtain ⟨hmem, hcut⟩ := h
  rw [List.mem_map] at hmem
  obtain ⟨p, hp, hpe⟩ := hmem
  rw [List.mem_filter] at hp
  obtain ⟨hpmem, hpkeys⟩ := hp
  refine ⟨by simpa using hcut, ?_, ?_, ?_⟩
  · rw [← hpe] at *
    simpa using hpmem
  · rw [← hpe]
    simpa using (by simpa using hpkeys : p.1 ≠ "created" ∧ p.1 ≠ "modified").1
  · rw [← hpe]
    simpa using (by simpa using hpkeys : p.1 ≠ "created" ∧ p.1 ≠ "modified").2

/-- C4: version selection yields exactly the error
NO_VERSION_BEFORE_CUTOFF when no version publish time is at or before the
cutoff, and otherwise selects a candidate version whose publish time is
maximal among the candidates (timestamps only; versions are opaque), is at
or before the cutoff, comes from the time map, and is not the
created/modified bookkeeping entry. -/
theorem selectVersion_spec :
    (∀ (timeMap : List (String × Int)) (cutoff : Int),
      versionCandidates timeMap cutoff = [] →
        selectVersion timeMap cutoff = Except.error "NO_VERSION_BEFORE_CUTOFF") ∧
    (∀ (timeMap : List (String × Int)) (cutoff : Int),
      versionCandidates timeMap cutoff ≠ [] →
        ∃ e, selectVersion timeMap cutoff = Except.ok e) ∧
    (∀ (timeMap : List (String × Int)) (cutoff : Int) (e : VersionEntry),
      selectVersion timeMap cutoff = Except.ok e →
        e ∈ versionCandidates timeMap cutoff ∧
        (∀ x ∈ versionCandidates timeMap cutoff, x.time ≤ e.time) ∧
        e.time ≤ cutoff ∧ (e.ver, e.time) ∈ timeMap ∧
        e.ver ≠ "created" ∧ e.ver ≠ "modified") := by
  refine ⟨?_, ?_, ?_⟩
  · intro timeMap cutoff h
    unfold selectVersion
    rw [if_pos (by simp [h])]
  · intro timeMap cutoff h
    unfold selectVersion
    rw [if_neg (by simp [h])]
    cases hl : (List.insertionSort timeLE (versionCandidates timeMap cutoff)).getLast? with
    | none =>
      rw [List.getLast?_eq_none_iff] at hl
      have hperm := (List.perm_insertionSort timeLE
        (versionCandidates timeMap cutoff)).symm
      rw [hl] at hperm
      exact absurd (List.eq_nil_of_length_eq_zero (by simpa using hperm.length_eq)) h
    | some e => exact ⟨e, rfl⟩
  · intro timeMap cutoff e h
    unfold selectVersion at h
    by_cases hemp : (versionCandidates timeMap cutoff).isEmpty
    · rw [if_pos hemp] at h
      exact absurd h (by simp)
    · rw [if_neg hemp] at h
      cases hl : (List.insertionSort timeLE (versionCandidates timeMap cutoff)).getLast? with
      | none => rw [hl] at h; exact absurd h (by simp)
      | some e2 =>
        rw [hl] at h
        have he : e2 = e := by simpa using h
        subst he
        have hperm := List.perm_insertionSort timeLE (versionCandidates timeMap cutoff)
        have hmem : e2 ∈ versionCandidates timeMap cutoff := by
          have : e2 ∈ List.insertionSort timeLE (versionCandidates timeMap cutoff) := by
            rcases List.getLast?_eq_some_iff.mp hl with ⟨ys, hys⟩
            rw [hys]; simp
          exact hperm.mem_iff.mp this
        have hmax : ∀ x ∈ versionCandidates timeMap cutoff, x.time ≤ e2.time := by
          intro x hx
          have hx2 : x ∈ List.insertionSort timeLE (versionCandidates timeMap cutoff) :=
            hperm.mem_iff.mpr hx
          have hsorted : (List.insertionSort timeLE
              (versionCandidates timeMap cutoff)).Pairwise timeLE :=
            List.sorted_insertionSort timeLE (versionCandidates timeMap cutoff)
          rcases pairwise_getLast_le _ e2 hsorted hl x hx2 with rfl | hle
          · exact le_refl _
          · exact hle
        obtain ⟨h1, h2, h3, h4⟩ := versionCandidates_shape timeMap cutoff e2 hmem
        exact ⟨hmem, hmax, h1, h2, h3, h4⟩

/-- C4 witness: the fixture with versions at times 1 < 2 < 3.  With cutoff
2 the selected version is the one published at time 2 and every candidate
time is at most 2; with cutoff 0 selection fails with
NO_VERSION_BEFORE_CUTOFF. -/
theorem selectVersion_spec_witness :
    selectVersion [("1.0.0", 1), ("1.0.1", 2), ("1.0.2", 3)] 2 =
      Except.ok { ver := "1.0.1", time := 2 } ∧
    (∀ x ∈ versionCandidates [("1.0.0", 1), ("1.0.1", 2), ("1.0.2", 3)] 2,
      x.time ≤ (2 : Int)) ∧
    (∃ e, selectVersion [("1.0.0", 1), ("1.0.1", 2), ("1.0.2", 3)] 2 =
      Except.ok e) ∧
    selectVersion [("1.0.0", 1), ("1.0.1", 2), ("1.0.2", 3)] 0 =
      Except.error "NO_VERSION_BEFORE_CUTOFF" := by
  have h3 := selectVersion_spec.2.2 [("1.0.0", 1), ("1.0.1", 2), ("1.0.2", 3)] 2
    { ver := "1.0.1", time := 2 } (by rfl)
  refine ⟨by rfl, ?_, selectVersion_spec.2.1 _ 2 (by decide),
    selectVersion_spec.1 _ 0 (by rfl)⟩
  intro x hx
  simpa using h3.2.1 x hx

theorem runQueueAux_perm {α β : Type} [DecidableEq α] [DecidableEq β]
    (worker : α → β) :
    ∀ (n : Nat) (pending active : List α) (sched : List Nat) (results : List β),
      pending.length + active.length ≤ n →
      (pending ≠ [] → active ≠ []) →
      List.Perm (runQueueAux worker pending active sched results)
        (results ++ (pending ++ active).map worker) := by
  intro n
  induction n with
  | zero =>
    intro pending active sched results hle _
    have hp : pending = [] := List.eq_nil_of_length_eq_zero (by omega)
    have ha : active = [] := List.eq_nil_of_length_eq_zero (by omega)
    subst hp; subst ha
    rw [runQueueAux]
    simp
  | succ n ih =>
    intro pending active sched results hle hinv
    by_cases h : active.length = 0
    · have ha : active = [] := List.eq_nil_of_length_eq_zero h
      have hp : pending = [] := by
        by_contra hne
        exact (hinv hne) ha
      subst ha; subst hp
      rw [runQueueAux]
      simp
    · rw [runQueueAux, dif_neg h]
      have hk : sched.head?.getD 0 % active.length < active.length :=
        Nat.mod_lt _ (Nat.pos_of_ne_zero h)
      have hmem : active.get ⟨sched.head?.getD 0 % active.length, hk⟩ ∈ active :=
        List.get_mem active _ hk
      have hactperm : List.Perm active
          (active.get ⟨sched.head?.getD 0 % active.length, hk⟩ ::
            active.eraseIdx (sched.head?.getD 0 % active.length)) := by
        refine (List.perm_cons_erase hmem).trans (List.Perm.cons _ ?_)
        have := List.erase_getElem (l := active)
          (i := sched.head?.getD 0 % active.length) hk
        simpa using this
      have hcount := fun b => (hactperm.map worker).count_eq b
      have hlen2 : (active.eraseIdx (sched.head?.getD 0 % active.length)).length =
          active.length - 1 := by
        rw [List.length_eraseIdx, if_pos hk]
      match pending with
      | [] =>
        have hstep := ih [] (active.eraseIdx (sched.head?.getD 0 % active.length))
          sched.tail (results ++ [worker (active.get ⟨_, hk⟩)])
          (by rw [hlen2]; simp; omega) (by simp)
        refine hstep.trans ?_
        rw [List.perm_iff_count]
        intro b
        have hc := hcount b
        simp only [List.count_append, List.count_cons, List.count_nil,
          List.nil_append, List.map_cons, List.map_nil] at hc ⊢
        omega
      | p :: ps =>
        have hstep := ih ps
          (active.eraseIdx (sched.head?.getD 0 % active.length) ++ [p])
          sched.tail (results ++ [worker (active.get ⟨_, hk⟩)])
          (by
            rw [List.length_append, hlen2]
            simp only [List.length_cons, List.length_nil] at hle ⊢
            omega)
          (by simp)
        refine hstep.trans ?_
        rw [List.perm_iff_count]
        intro b
        have hc := hcount b
        simp only [List.count_append, List.count_cons, List.count_nil,
          List.map_append, List.map_cons, List.map_nil] at hc ⊢
        omega

/-- C2: for any cutoff, network behaviour, directory contents, input list,
concurrency of at least 1 and settlement schedule, the fetch pipeline
completes (the embedding is total) with a ledger holding exactly the
outcome of each input name once, so success entries plus failure entries
equal the input count. -/
theorem runQueue_spec (cutoff : Int) (net : NetEnv) (hasContent : String → Bool)
    (outDir : String) (items : List String) (concurrency : Nat)
    (sched : List Nat) (hC : 1 ≤ concurrency) :
    List.Perm
      (runQueue (fun pkg => (processPackage cutoff net hasContent outDir pkg).1)
        items concurrency sched)
      (items.map (fun pkg => (processPackage cutoff net hasContent outDir pkg).1)) ∧
    (runQueue (fun pkg => (processPackage cutoff net hasContent outDir pkg).1)
        items concurrency sched).countP (fun r => r.isOk) +
      (runQueue (fun pkg => (processPackage cutoff net hasContent outDir pkg).1)
        items concurrency sched).countP (fun r => !r.isOk) = items.length := by
  have hinv : items.drop concurrency ≠ [] → items.take concurrency ≠ [] := by
    intro hdrop
    have h1 : concurrency < items.length := by
      by_contra hle
      exact hdrop (List.drop_eq_nil_of_le (by omega))
    have : (items.take concurrency).length = concurrency := by
      rw [List.length_take]
      omega
    intro hnil
    rw [hnil] at this
    simp at this
    omega
  have hperm0 := runQueueAux_perm
    (fun pkg => (processPackage cutoff net hasContent outDir pkg).1)
    (items.length) (items.drop concurrency) (items.take concurrency) sched []
    (by simp; omega) hinv
  have hsplit : List.Perm
      (items.drop concurrency ++ items.take concurrency) items := by
    refine (List.perm_append_comm).trans ?_
    rw [List.take_append_drop]
  have hperm : List.Perm
      (runQueue (fun pkg => (processPackage cutoff net hasContent outDir pkg).1)
        items concurrency sched)
      (items.map (fun pkg => (processPackage cutoff net hasContent outDir pkg).1)) := by
    unfold runQueue
    refine hperm0.trans ?_
    simpa using hsplit.map _
  refine ⟨hperm, ?_⟩
  have hlen : (runQueue
      (fun pkg => (processPackage cutoff net hasContent outDir pkg).1)
      items concurrency sched).length = items.length := by
    rw [hperm.length_eq, List.length_map]
  rw [← hlen]
  have := List.length_eq_countP_add_countP (l := runQueue
    (fun pkg => (processPackage cutoff net hasContent outDir pkg).1)
    items concurrency sched) (p := fun r => r.isOk)
  rw [this]
  congr 1
  refine List.countP_congr ?_
  intro x _
  cases hx : x.isOk <;> simp [hx]

/-- C2 witness: three packages where the middle one fails metadata
resolution, concurrency 2, one concrete schedule. -/
theorem runQueue_spec_witness :
    List.Perm
      (runQueue
        (fun pkg => (processPackage 10 fetchNetFixture (fun _ => false)
          "downloaded_packages" pkg).1)
        ["good", "bad", "also"] 2 [0, 0, 0])
      (["good", "bad", "also"].map
        (fun pkg => (processPackage 10 fetchNetFixture (fun _ => false)
          "downloaded_packages" pkg).1)) ∧
    (runQueue
        (fun pkg => (processPackage 10 fetchNetFixture (fun _ => false)
          "downloaded_packages" pkg).1)
        ["good", "bad", "also"] 2 [0, 0, 0]).countP (fun r => r.isOk) +
      (runQueue
        (fun pkg => (processPackage 10 fetchNetFixture (fun _ => false)
          "downloaded_packages" pkg).1)
        ["good", "bad", "also"] 2 [0, 0, 0]).countP (fun r => !r.isOk) = 3 :=
  runQueue_spec 10 fetchNetFixture (fun _ => false) "downloaded_packages"
    ["good", "bad", "also"] 2 [0, 0, 0] (by decide)

theorem downloadRetry_mem_first (net : NetEnv) (url : String) :
    FetchAction.download url 1 ∈ (downloadRetry net url 1 3).2 := by
  rw [downloadRetry]
  split
  · simp
  · simp

/-- C3 counterexample: a package whose destination directory already
contains extracted content (content predicate constantly true) is still
downloaded and extracted by the fetch pipeline: the download and extract
actions occur in its trace, refuting the claim that such a package is not
re-fetched. -/
theorem processPackage_refetch_counterexample :
    FetchAction.download "https-tarball" 1 ∈
      (processPackage 10 fetchNetFixture (fun _ => true)
        "downloaded_packages" "good").2 ∧
    FetchAction.extract
        "downloaded_packages/good/good-1.0.0.tgz" ∈
      (processPackage 10 fetchNetFixture (fun _ => true)
        "downloaded_packages" "good").2 := by
  decide

/-- C3 amended: the fetch pipeline has no existing-content check.  The
per-package job is entirely independent of the destination directory
content, and any successfully fetched package has performed a download
(first attempt) and an extraction, so packages are re-downloaded and
re-extracted on every run; resumability by existing content does not hold
for this component (only the sandbox executor skips completed work). -/
theorem processPackage_no_resume (cutoff : Int) (net : NetEnv)
    (hasA hasB : String → Bool) (outDir pkg : String) :
    processPackage cutoff net hasA outDir pkg =
      processPackage cutoff net hasB outDir pkg ∧
    (∀ ver dir, (processPackage cutoff net hasA outDir pkg).1 =
        PkgOutcome.ok pkg ver dir →
      (∃ url, FetchAction.download url 1 ∈
        (processPackage cutoff net hasA outDir pkg).2) ∧
      (∃ tgz, FetchAction.extract tgz ∈
        (processPackage cutoff net hasA outDir pkg).2)) := by
  refine ⟨rfl, ?_⟩
  intro ver dir hok
  unfold processPackage at hok ⊢
  cases hm : net.fetchMeta pkg with
  | error _ => simp [hm] at hok
  | ok meta =>
    simp only [hm] at hok
    cases hs : selectVersion meta.time cutoff with
    | error _ => simp [hs] at hok
    | ok sel =>
      simp only [hs] at hok ⊢
      cases ht : meta.versions.lookup sel.ver with
      | none => simp [ht] at hok
      | some tb =>
        cases tb with
        | none => simp [ht] at hok
        | some url =>
          simp only [ht] at hok ⊢
          by_cases hdl : (downloadRetry net url 1 3).1 = true
          · refine ⟨⟨url, ?_⟩,
              ⟨outDir ++ "/" ++ safeName pkg ++ "/" ++ safeName pkg ++
                "-" ++ sel.ver ++ ".tgz", ?_⟩⟩
            · simp only [hdl, if_true]
              split <;> simp [downloadRetry_mem_first]
            · simp only [hdl, if_true]
              split <;> simp
          · simp [hdl] at hok

/-- C3 amended witness: for the concrete fixture, per-package results are
identical whether or not the destination already has content, and the
successful job performed a download and an extraction. -/
theorem processPackage_no_resume_witness :
    processPackage 10 fetchNetFixture (fun _ => true)
        "downloaded_packages" "good" =
      processPackage 10 fetchNetFixture (fun _ => false)
        "downloaded_packages" "good" ∧
    (∃ url, FetchAction.download url 1 ∈
      (processPackage 10 fetchNetFixture (fun _ => true)
        "downloaded_packages" "good").2) ∧
    (∃ tgz, FetchAction.extract tgz ∈
      (processPackage 10 fetchNetFixture (fun _ => true)
        "downloaded_packages" "good").2) := by
  have h := processPackage_no_resume 10 fetchNetFixture (fun _ => true)
    (fun _ => false) "downloaded_packages" "good"
  exact ⟨h.1, h.2 "1.0.0" "downloaded_packages/good" (by decide)⟩

theorem queryVirusTotal_domain (outcome : String → VTOutcome) (d : String) :
    ((queryVirusTotal outcome d).1).domain = d := by
  unfold queryVirusTotal
  cases outcome d <;> rfl

theorem queryVirusTotal_isFailure (outcome : String → VTOutcome) (d : String) :
    ((queryVirusTotal outcome d).1).isFailure = true ↔
      ∃ msg, outcome d = VTOutcome.fail msg := by
  unfold queryVirusTotal
  cases ho : outcome d <;> simp [VTEntry.isFailure]

theorem wellPaced_flatMap (outcome : String → VTOutcome) :
    ∀ ds : List String,
      wellPaced (ds.flatMap (fun d => (queryVirusTotal outcome d).2)) = true
  | [] => rfl
  | d :: rest => by
    simp only [List.flatMap_cons]
    show wellPaced (VTEvent.delay 1000 :: VTEvent.query d ::
      rest.flatMap (fun x => (queryVirusTotal outcome x).2)) = true
    rw [wellPaced]
    exact wellPaced_flatMap outcome rest

theorem countQuery_flatMap (outcome : String → VTOutcome) :
    ∀ ds : List String,
      (ds.flatMap (fun d => (queryVirusTotal outcome d).2)).countP
        VTEvent.isQuery = ds.length
  | [] => rfl
  | d :: rest => by
    simp only [List.flatMap_cons, List.countP_append, List.length_cons]
    rw [countQuery_flatMap outcome rest]
    have h1 : (queryVirusTotal outcome d).2.countP VTEvent.isQuery = 1 := rfl
    omega

/-- C9: the enrichment returns exactly one entry per queried domain, in
order (so no failure aborts the rest of the batch); an entry is the
error form exactly when the external lookup of its domain fails; at most
5 domains are queried per batch, and in the event trace every query is
immediately preceded by the fixed delay. -/
theorem scanC2Batch_spec (outcome : String → VTOutcome) (domains : List String) :
    ((scanC2Batch outcome domains).1.map VTEntry.domain =
      domains.take maxQueries) ∧
    (scanC2Batch outcome domains).1.length ≤ 5 ∧
    (∀ i (h : i < (scanC2Batch outcome domains).1.length),
      (((scanC2Batch outcome domains).1.get ⟨i, h⟩).isFailure = true ↔
        ∃ msg, outcome (((scanC2Batch outcome domains).1.get ⟨i, h⟩).domain) =
          VTOutcome.fail msg)) ∧
    wellPaced (scanC2Batch outcome domains).2 = true ∧
    (scanC2Batch outcome domains).2.countP VTEvent.isQuery =
      (domains.take maxQueries).length := by
  refine ⟨?_, ?_, ?_, ?_, ?_⟩
  · unfold scanC2Batch
    rw [List.map_map]
    have : VTEntry.domain ∘ (fun d => (queryVirusTotal outcome d).1) = id := by
      funext d
      exact queryVirusTotal_domain outcome d
    rw [this, List.map_id]
  · unfold scanC2Batch
    simp only [List.length_map]
    exact List.length_take_le _ _
  · intro i h
    simp only [scanC2Batch, List.get_eq_getElem, List.getElem_map] at h ⊢
    rw [queryVirusTotal_domain]
    exact queryVirusTotal_isFailure outcome _
  · exact wellPaced_flatMap outcome (domains.take maxQueries)
  · exact countQuery_flatMap outcome (domains.take maxQueries)

/-- C9 witness: five concrete domains where the third fails; the entry
list keys match the domains, the third entry is the error form, the trace
is delay-then-query throughout. -/
theorem scanC2Batch_spec_witness :
    ((scanC2Batch vtFixture fiveDomains).1.map VTEntry.domain =
      fiveDomains.take maxQueries) ∧
    (((scanC2Batch vtFixture fiveDomains).1.get ⟨2, by decide⟩).isFailure = true ↔
      ∃ msg, vtFixture (((scanC2Batch vtFixture fiveDomains).1.get
        ⟨2, by decide⟩).domain) = VTOutcome.fail msg) ∧
    wellPaced (scanC2Batch vtFixture fiveDomains).2 = true := by
  have h := scanC2Batch_spec vtFixture fiveDomains
  exact ⟨h.1, h.2.2.1 2 (by decide), h.2.2.2.1⟩

theorem fsGet_fsSet (fs : SandboxFS) (k k2 : String × String) (v : FileContent) :
    fsGet (fsSet fs k v) k2 = if k2 = k then some v else fsGet fs k2 := by
  simp only [fsGet, fsSet, List.lookup]
  split
  · next hbeq => rw [if_pos (by simpa using hbeq)]
  · next hbeq => rw [if_neg (by simpa using hbeq)]

theorem applyOptWrite_other (fs : SandboxFS) (k k2 : String × String)
    (o : Option String) (h : k2 ≠ k) :
    fsGet (applyOptWrite fs k o) k2 = fsGet fs k2 := by
  cases o with
  | none => rfl
  | some c => rw [applyOptWrite, fsGet_fsSet, if_neg h]

theorem applyDockerWrites_json (fs : SandboxFS) (safe : String)
    (r : DockerResult) (base : String) :
    fsGet (applyDockerWrites fs safe r) (base, "json") =
      fsGet fs (base, "json") := by
  unfold applyDockerWrites
  rw [applyOptWrite_other _ _ _ _ (by simp),
    applyOptWrite_other _ _ _ _ (by simp),
    applyOptWrite_other _ _ _ _ (by simp),
    applyOptWrite_other _ _ _ _ (by simp)]

theorem applyDockerWrites_txt_none (fs : SandboxFS) (safe : String)
    (r : DockerResult) (h : r.captureTxt = none) (base : String) :
    fsGet (applyDockerWrites fs safe r) (base, "txt") =
      fsGet fs (base, "txt") := by
  unfold applyDockerWrites
  rw [h]
  show fsGet (applyOptWrite (applyOptWrite (applyOptWrite fs
    (safe, "start.txt") r.startTxt) (safe, "pcap") r.pcap)
    (safe, "end.txt") r.endTxt) (base, "txt") = fsGet fs (base, "txt")
  rw [applyOptWrite_other _ _ _ _ (by simp),
    applyOptWrite_other _ _ _ _ (by simp),
    applyOptWrite_other _ _ _ _ (by simp)]

theorem sandboxStep_skip (denv : String → DockerResult) (now : String)
    (fs : SandboxFS) (pkg : String)
    (h : (fsGet fs (safeName pkg, "json")).isSome) :
    sandboxStep denv now fs pkg = (fs, false) := by
  unfold sandboxStep
  rw [if_pos h]

theorem sandboxStep_preserves (denv : String → DockerResult) (now : String)
    (fs : SandboxFS) (q p : String) (c : FileContent)
    (h : fsGet fs (safeName p, "json") = some c) :
    fsGet (sandboxStep denv now fs q).1 (safeName p, "json") = some c := by
  by_cases hq : (fsGet fs (safeName q, "json")).isSome
  · rw [sandboxStep_skip denv now fs q hq]
    exact h
  · have hne : safeName q ≠ safeName p := by
      intro he
      rw [he, h] at hq
      exact hq rfl
    unfold sandboxStep
    rw [if_neg hq]
    simp only
    rw [fsGet_fsSet,
      if_neg (fun he => hne ((Prod.ext_iff.mp he).1.symm)),
      applyDockerWrites_json]
    exact h

/-- C1: a package whose result artifact `<safe>.json` already exists when
the executor starts keeps a byte-identical artifact through any run over
any package list, and the isolation runtime is never invoked under that
safe name. -/
theorem sandboxExecutor_idempotent (denv : String → DockerResult)
    (now : String) (fs : SandboxFS) (pkgs : List String) (p : String)
    (c : FileContent) (h : fsGet fs (safeName p, "json") = some c) :
    fsGet (runExecutor denv now fs pkgs).1 (safeName p, "json") = some c ∧
    safeName p ∉ (runExecutor denv now fs pkgs).2 := by
  induction pkgs generalizing fs with
  | nil => exact ⟨h, by simp [runExecutor]⟩
  | cons q ps ih =>
    simp only [runExecutor]
    have hpres := sandboxStep_preserves denv now fs q p c h
    rcases ih (sandboxStep denv now fs q).1 hpres with ⟨h1, h2⟩
    refine ⟨h1, ?_⟩
    by_cases hq : (fsGet fs (safeName q, "json")).isSome
    · rw [sandboxStep_skip denv now fs q hq] at h2 ⊢
      simpa using h2
    · have hne : safeName q ≠ safeName p := by
        intro he
        rw [he, h] at hq
        exact hq rfl
      have hinv : (sandboxStep denv now fs q).2 = true := by
        unfold sandboxStep
        rw [if_neg hq]
      rw [hinv]
      simp only [if_true, List.mem_append, List.mem_singleton]
      intro hcon
      rcases hcon with hcon | hcon
      · exact hne hcon.symm
      · exact h2 hcon

/-- C1 witness: a store already holding the artifact for package `done`;
running the executor over a list containing `done` leaves the artifact
unchanged and never invokes the runtime for it. -/
theorem sandboxExecutor_idempotent_witness :
    fsGet (runExecutor dockerFailFixture "t1"
        [(("done", "json"), FileContent.record "done" [] "t0")]
        ["done", "other"]).1 ("done", "json") =
      some (FileContent.record "done" [] "t0") ∧
    "done" ∉ (runExecutor dockerFailFixture "t1"
        [(("done", "json"), FileContent.record "done" [] "t0")]
        ["done", "other"]).2 := by
  have h := sandboxExecutor_idempotent dockerFailFixture "t1"
    [(("done", "json"), FileContent.record "done" [] "t0")]
    ["done", "other"] "done" (FileContent.record "done" [] "t0") (by rfl)
  have hsafe : safeName "done" = "done" := by rfl
  rw [hsafe] at h
  exact h

/-- C10: when the artifact is absent the executor always invokes the
runtime and always writes the result artifact at the end of the job; in
particular when the launch errors, no capture text was produced and none
pre-exists, the record carries the empty domain list; and because the
artifact is the resumability marker, a second step for the same package
skips it (no runtime invocation, store unchanged) - there is no distinct
Failed artifact to retry from. -/
theorem sandboxStep_always_completes (denv : String → DockerResult)
    (now : String) (fs : SandboxFS) (pkg : String)
    (habsent : fsGet fs (safeName pkg, "json") = none) :
    ((sandboxStep denv now fs pkg).2 = true ∧
      (fsGet (sandboxStep denv now fs pkg).1 (safeName pkg, "json")).isSome) ∧
    ((denv (safeName pkg)).error = true →
      (denv (safeName pkg)).captureTxt = none →
      fsGet fs (safeName pkg, "txt") = none →
      fsGet (sandboxStep denv now fs pkg).1 (safeName pkg, "json") =
        some (FileContent.record pkg [] now)) ∧
    sandboxStep denv now (sandboxStep denv now fs pkg).1 pkg =
      ((sandboxStep denv now fs pkg).1, false) := by
  have hq : ¬ (fsGet fs (safeName pkg, "json")).isSome := by
    rw [habsent]
    simp
  have hwrite : fsGet (sandboxStep denv now fs pkg).1 (safeName pkg, "json") =
      some (FileContent.record pkg
        (match fsGet (applyDockerWrites fs (safeName pkg) (denv (safeName pkg)))
            (safeName pkg, "txt") with
          | some (FileContent.text t) => extractDomains (splitLines t)
          | _ => []) now) := by
    unfold sandboxStep
    rw [if_neg hq]
    simp only
    rw [fsGet_fsSet, if_pos rfl]
  have hinv : (sandboxStep denv now fs pkg).2 = true := by
    unfold sandboxStep
    rw [if_neg hq]
  refine ⟨⟨hinv, by rw [hwrite]; rfl⟩, ?_, ?_⟩
  · intro _ hcap hpre
    rw [hwrite, applyDockerWrites_txt_none _ _ _ hcap, hpre]
  · exact sandboxStep_skip denv now _ pkg (by rw [hwrite]; rfl)

/-- C10 witness: empty store, a container oracle that always fails to
launch and produces no capture; the job still writes the artifact with an
empty domain list, and a second step skips the package. -/
theorem sandboxStep_always_completes_witness :
    (sandboxStep dockerFailFixture "t1" [] "evil").2 = true ∧
    fsGet (sandboxStep dockerFailFixture "t1" [] "evil").1
        (safeName "evil", "json") =
      some (FileContent.record "evil" [] "t1") ∧
    sandboxStep dockerFailFixture "t1"
        (sandboxStep dockerFailFixture "t1" [] "evil").1 "evil" =
      ((sandboxStep dockerFailFixture "t1" [] "evil").1, false) := by
  have h := sandboxStep_always_completes dockerFailFixture "t1" [] "evil"
    (by rfl)
  exact ⟨h.1.1, h.2.1 (by rfl) (by rfl) (by rfl), h.2.2⟩
